import Mathlib

/-!
# Shallow embedding of the Cache_Simulator core (`sim.py`)

This file embeds the cache engine of the repository — `Memory`,
`CacheBlock`, `CacheSet`, `Cache` and their operations — as executable
Lean definitions, and proves the specification claims about them.

Modelling conventions:
* Python integers are `Nat` (addresses, sizes, timestamps) or `Int`
  (stored word values); Python `None` cells are `Option Int` with `none`.
* A Python exception is `Except.error msg`; since Python mutation is in
  place and survives a raise, every operation returns its (possibly
  partially mutated) state next to the `Except` result.
* `collections.OrderedDict` is an association list `List (Nat × CacheBlock)`
  in insertion order with unique keys: assignment to an existing key
  updates in place (keeping its position), to a fresh key appends.
* `random.choice` in the RANDOM policy is an oracle argument
  `pick : List Nat → Nat` selecting a position in the key list; the
  claims proved below concern FIFO/LRU and hold for every oracle.
* Python division by zero raises `ZeroDivisionError`; the embedding
  guards the corresponding spots explicitly (the constructor-validated
  configurations used by the claims never hit them).
* The source stores the shared `Memory` object on every `CacheSet` and also
  passes it as a parameter to `Cache.read`/`Cache.write`; the drivers
  always pass the very object the sets hold, so the embedding threads one
  `Memory` value through all operations instead of storing references.
-/

namespace CacheSim

/-- Replacement policy; `Cache.__init__` rejects any string outside this set,
so the embedding uses an enumeration. -/
inductive Policy where
  | FIFO
  | LRU
  | RANDOM
deriving DecidableEq, Repr

/-- Decidable equality for operation results (used by concrete witnesses). -/
instance {ε α : Type} [DecidableEq ε] [DecidableEq α] : DecidableEq (Except ε α) := fun x y =>
  match x, y with
  | Except.ok a, Except.ok b =>
      if h : a = b then isTrue (by rw [h])
      else isFalse (by intro hc; cases hc; exact h rfl)
  | Except.error a, Except.error b =>
      if h : a = b then isTrue (by rw [h])
      else isFalse (by intro hc; cases hc; exact h rfl)
  | Except.ok _, Except.error _ => isFalse (by intro hc; cases hc)
  | Except.error _, Except.ok _ => isFalse (by intro hc; cases hc)

/-- `Memory`: flat backing store, `data` of length `size` (cells start as
Python `None`, modelled `none`), plus an access counter. -/
structure Memory where
  size : Nat
  data : List (Option Int)
  access_count : Nat
deriving DecidableEq, Repr

/-- `Memory.__init__(size)`. -/
def Memory.new (size : Nat) : Memory :=
  { size := size, data := List.replicate size none, access_count := 0 }

/-- `Memory.read`: bounds check, bump `access_count`, return the stored
value with `None ↦ 0`.  The returned `Memory` is the post-call state. -/
def Memory.read (m : Memory) (address : Nat) : Except String Int × Memory :=
  if address ≥ m.size then
    (Except.error "Address out of range", m)
  else
    (match m.data.getD address none with
      | none => Except.ok 0
      | some v => Except.ok v,
     { m with access_count := m.access_count + 1 })

/-- `Memory.write`: bounds check, bump `access_count`, store the raw value
(which may be Python `None`, hence `Option Int`). -/
def Memory.write (m : Memory) (address : Nat) (v : Option Int) :
    Except String Unit × Memory :=
  if address ≥ m.size then
    (Except.error "Address out of range", m)
  else
    (Except.ok (),
     { m with access_count := m.access_count + 1, data := m.data.set address v })

/-- `CacheBlock`: one cache line.  `CacheBlock.__init__` leaves `tag` and
`base_address` as Python `None`; every block that reaches a set is built on
the read-miss path with both fields set, so the embedding uses `Nat` with
`0` as the initialisation placeholder. -/
structure CacheBlock where
  tag : Nat
  valid : Bool
  dirty : Bool
  block_size : Nat
  data : List (Option Int)
  base_address : Nat
  load_time : Nat
  last_time : Nat
deriving DecidableEq, Repr

/-- `CacheBlock.__init__(block_size)`. -/
def CacheBlock.new (block_size : Nat) : CacheBlock :=
  { tag := 0, valid := false, dirty := false, block_size := block_size,
    data := List.replicate block_size none, base_address := 0,
    load_time := 0, last_time := 0 }

/-- OrderedDict assignment `d[k] = v`: update in place if the key exists
(keeping insertion order), otherwise append. -/
def odSet (l : List (Nat × CacheBlock)) (k : Nat) (v : CacheBlock) :
    List (Nat × CacheBlock) :=
  if l.any (fun p => p.1 == k) then
    l.map (fun p => if p.1 == k then (k, v) else p)
  else
    l ++ [(k, v)]

/-- OrderedDict deletion `del d[k]`. -/
def odDel (l : List (Nat × CacheBlock)) (k : Nat) : List (Nat × CacheBlock) :=
  l.filter (fun p => p.1 != k)

/-- `CacheSet`: the OrderedDict of blocks plus the configuration copies the
source stores on the set.  The shared `Memory` reference is threaded through
the operations instead of being stored. -/
structure CacheSet where
  blocks : List (Nat × CacheBlock)
  associativity : Nat
  policy : Policy
deriving DecidableEq, Repr

/-- `CacheSet.__init__`. -/
def CacheSet.new (associativity : Nat) (policy : Policy) : CacheSet :=
  { blocks := [], associativity := associativity, policy := policy }

/-- `CacheSet.find_block`: pure lookup by tag, `None` on absence. -/
def CacheSet.find_block (s : CacheSet) (tag : Nat) : Option CacheBlock :=
  (s.blocks.find? (fun p => p.1 == tag)).map Prod.snd

/-- The FIFO/LRU victim-selection loop of `CacheSet.evict_block`:
`temp = -1`, then for each block in OrderedDict order,
`if temp == -1 or key(block) < temp: temp, evict_tag = key(block), tag`. -/
def evictScanAux (key : CacheBlock → Nat) (temp : Int) (evict_tag : Option Nat) :
    List (Nat × CacheBlock) → Option Nat
  | [] => evict_tag
  | p :: rest =>
      if temp = -1 ∨ (key p.2 : Int) < temp then
        evictScanAux key (key p.2) (some p.1) rest
      else
        evictScanAux key temp evict_tag rest

/-- The victim scan started the way the source starts it. -/
def evictScan (key : CacheBlock → Nat) (blocks : List (Nat × CacheBlock)) :
    Option Nat :=
  evictScanAux key (-1) none blocks

/-- The victim tag `CacheSet.evict_block` selects (the part of the function
before the write-back): `random.choice` for RANDOM via the `pick` oracle,
the `load_time` scan for FIFO, the `last_time` scan for LRU. -/
def CacheSet.evictTag (pick : List Nat → Nat) (s : CacheSet) : Option Nat :=
  match s.policy with
  | Policy.RANDOM =>
      let keys := s.blocks.map Prod.fst
      some (keys.getD (pick keys) 0)
  | Policy.FIFO => evictScan (fun b => b.load_time) s.blocks
  | Policy.LRU => evictScan (fun b => b.last_time) s.blocks

/-- The dirty write-back loop of `CacheSet.evict_block`, from index `i` for
`count` further iterations: `addr = base_address + i`, and if
`addr < memory.size`, `memory.write(addr, data[i])`.  `data[i]` on a short
list is Python `IndexError`. -/
def writeBackAux (b : CacheBlock) (m : Memory) (i : Nat) :
    Nat → Except String Unit × Memory
  | 0 => (Except.ok (), m)
  | count + 1 =>
      let addr := b.base_address + i
      if addr < m.size then
        match b.data.get? i with
        | none => (Except.error "IndexError", m)
        | some v =>
            match Memory.write m addr v with
            | (Except.ok _, m') => writeBackAux b m' (i + 1) count
            | (Except.error e, m') => (Except.error e, m')
      else
        writeBackAux b m (i + 1) count

/-- `for i in range(block_size): ...` of the write-back. -/
def writeBack (b : CacheBlock) (m : Memory) : Except String Unit × Memory :=
  writeBackAux b m 0 b.block_size

/-- `CacheSet.evict_block`: early return on an empty set, victim selection
per policy, write-back when the victim is dirty and has data, then deletion. -/
def CacheSet.evict_block (pick : List Nat → Nat) (s : CacheSet) (m : Memory) :
    Except String Unit × CacheSet × Memory :=
  if s.blocks.isEmpty then
    (Except.ok (), s, m)
  else
    match s.evictTag pick with
    | none => (Except.ok (), s, m)
    | some t =>
        match s.find_block t with
        | none => (Except.error "KeyError", s, m)
        | some b =>
            if b.dirty && !b.data.isEmpty then
              match writeBack b m with
              | (Except.ok _, m') =>
                  (Except.ok (), { s with blocks := odDel s.blocks t }, m')
              | (Except.error e, m') => (Except.error e, s, m')
            else
              (Except.ok (), { s with blocks := odDel s.blocks t }, m)

/-- `CacheSet.add_block`: evict first when the set is full, then insert the
block keyed by its tag. -/
def CacheSet.add_block (pick : List Nat → Nat) (s : CacheSet) (m : Memory)
    (b : CacheBlock) : Except String Unit × CacheSet × Memory :=
  if s.blocks.length ≥ s.associativity then
    match s.evict_block pick m with
    | (Except.ok _, s', m') =>
        (Except.ok (), { s' with blocks := odSet s'.blocks b.tag b }, m')
    | (Except.error e, s', m') => (Except.error e, s', m')
  else
    (Except.ok (), { s with blocks := odSet s.blocks b.tag b }, m)

/-- Repeated halving: is `n` a power of two, with `fuel` bounding the
number of halvings (structural recursion so that concrete instances reduce
by `rfl`)? -/
def isPow2Aux : Nat → Nat → Bool
  | _, 0 => false
  | 0, _ + 1 => false
  | 1, _ + 1 => true
  | n + 2, fuel + 1 => decide ((n + 2) % 2 = 0) && isPow2Aux ((n + 2) / 2) fuel

/-- `math.log2(n) % 1 == 0` for a positive integer, i.e. `n` is a power of
two (`n` itself always suffices as halving fuel). -/
def isPow2 (n : Nat) : Bool := isPow2Aux n n

/-- `Cache`: configuration, statistics counters, logical time, and the
per-index sets (`self.sets`, a dict with keys `0 .. set_count-1`, here the
list position). -/
structure Cache where
  cache_size : Nat
  associativity : Nat
  policy : Policy
  address_bit : Nat
  block_size : Nat
  set_count : Nat
  access_count : Nat
  hit_count : Nat
  read_count : Nat
  write_count : Nat
  read_hit_count : Nat
  write_hit_count : Nat
  time : Nat
  sets : List CacheSet
deriving DecidableEq, Repr

/-- The object `Cache.__init__` builds once its parameter checks pass:
`set_count = int(cache_size / (block_size * associativity))` (Python float
division truncated by `int`, i.e. `Nat` division), all counters and `time`
zero, one fresh `CacheSet` per index. -/
def mkCache (cache_size block_size associativity : Nat) (policy : Policy)
    (address_bit : Nat) : Cache :=
  let set_count := cache_size / (block_size * associativity)
  { cache_size := cache_size, associativity := associativity,
    policy := policy, address_bit := address_bit, block_size := block_size,
    set_count := set_count,
    access_count := 0, hit_count := 0, read_count := 0, write_count := 0,
    read_hit_count := 0, write_hit_count := 0, time := 0,
    sets := List.replicate set_count (CacheSet.new associativity policy) }

/-- `Cache.__init__`: positivity check, power-of-two check, policy check
(always satisfied by the `Policy` enumeration), then construction.  Note the
source never checks that the division defining `set_count` is exact. -/
def Cache.new (cache_size block_size associativity : Nat) (policy : Policy)
    (address_bit : Nat) : Except String Cache :=
  if cache_size = 0 ∨ block_size = 0 ∨ associativity = 0 then
    Except.error "Parameter must be greater than 0"
  else if ¬(isPow2 cache_size ∧ isPow2 block_size ∧ isPow2 associativity) then
    Except.error "Parameter must be a power of 2"
  else
    Except.ok (mkCache cache_size block_size associativity policy address_bit)

/-- `Cache.address_split`: range check, then
`offset = address % block_size`, `index = (address // block_size) % set_count`,
`tag = address // (block_size * set_count)`.  The explicit zero guard mirrors
Python `ZeroDivisionError`; constructor-validated configurations with
`set_count ≥ 1` never take it. -/
def Cache.address_split (c : Cache) (address : Nat) :
    Except String (Nat × Nat × Nat) :=
  if address ≥ 2 ^ c.address_bit then
    Except.error "Address out of range"
  else if c.block_size = 0 ∨ c.set_count = 0 then
    Except.error "ZeroDivisionError"
  else
    let offset := address % c.block_size
    let index := (address / c.block_size) % c.set_count
    let tag := address / (c.block_size * c.set_count)
    Except.ok (tag, index, offset)

/-- The miss-path fill loop of `Cache.read`, from word `i` for `count` more
iterations: append `memory.read(block_address + i)` whenever
`block_address + i < 2 ** address_bit`. -/
def fillAux (c : Cache) (block_address : Nat) (acc : List (Option Int))
    (m : Memory) (i : Nat) : Nat → Except String (List (Option Int)) × Memory
  | 0 => (Except.ok acc, m)
  | count + 1 =>
      if block_address + i < 2 ^ c.address_bit then
        match Memory.read m (block_address + i) with
        | (Except.ok v, m') => fillAux c block_address (acc ++ [some v]) m' (i + 1) count
        | (Except.error e, m') => (Except.error e, m')
      else
        fillAux c block_address acc m (i + 1) count

/-- `Cache.read`: bump `access_count`/`read_count`, split the address, look
up the set and the tag; on a hit bump hit counters, refresh `last_time`
under LRU, advance `time` and return `data[offset]`; on a miss fill a new
block from memory, `add_block` it (possibly evicting), advance `time` and
return the fetched word. -/
def Cache.read (pick : List Nat → Nat) (c : Cache) (m : Memory)
    (address : Nat) : Except String (Option Int) × Cache × Memory :=
  let c := { c with access_count := c.access_count + 1,
                    read_count := c.read_count + 1 }
  match c.address_split address with
  | Except.error e => (Except.error e, c, m)
  | Except.ok (tag, index, offset) =>
    match c.sets.get? index with
    | none => (Except.error "KeyError", c, m)
    | some cache_set =>
      let hitBlock : Option CacheBlock :=
        match cache_set.find_block tag with
        | some b => if b.valid then some b else none
        | none => none
      match hitBlock with
      | some block =>
          let c := { c with hit_count := c.hit_count + 1,
                            read_hit_count := c.read_hit_count + 1 }
          let block := if c.policy = Policy.LRU then
                         { block with last_time := c.time }
                       else block
          let cache_set := { cache_set with blocks := odSet cache_set.blocks tag block }
          let c := { c with sets := c.sets.set index cache_set, time := c.time + 1 }
          if block.data.isEmpty then
            (Except.ok none, c, m)
          else
            match block.data.get? offset with
            | none => (Except.error "IndexError", c, m)
            | some v => (Except.ok v, c, m)
      | none =>
          let block_address := (address / c.block_size) * c.block_size
          match fillAux c block_address [] m 0 c.block_size with
          | (Except.error e, m') => (Except.error e, c, m')
          | (Except.ok data, m') =>
            let new_block : CacheBlock :=
              { tag := tag, valid := true, dirty := false,
                block_size := c.block_size, data := data,
                base_address := block_address,
                load_time := c.time, last_time := c.time }
            match cache_set.add_block pick m' new_block with
            | (Except.error e, s', m'') =>
                (Except.error e, { c with sets := c.sets.set index s' }, m'')
            | (Except.ok _, s', m'') =>
                let c := { c with sets := c.sets.set index s', time := c.time + 1 }
                if data.isEmpty then
                  (Except.ok none, c, m'')
                else
                  match data.get? offset with
                  | none => (Except.error "IndexError", c, m'')
                  | some v => (Except.ok v, c, m'')

/-- `Cache.write`: bump `access_count`/`write_count`, split the address; on
a hit bump hit counters, (re)allocate an all-`None` data list if the block
has none, store the value at `offset`, set `dirty`, refresh `last_time`
under LRU and advance `time`; on a miss advance `time` and write straight
to memory (write-around, no block created). -/
def Cache.write (c : Cache) (m : Memory) (address : Nat) (value : Int) :
    Except String Unit × Cache × Memory :=
  let c := { c with access_count := c.access_count + 1,
                    write_count := c.write_count + 1 }
  match c.address_split address with
  | Except.error e => (Except.error e, c, m)
  | Except.ok (tag, index, offset) =>
    match c.sets.get? index with
    | none => (Except.error "KeyError", c, m)
    | some cache_set =>
      let hitBlock : Option CacheBlock :=
        match cache_set.find_block tag with
        | some b => if b.valid then some b else none
        | none => none
      match hitBlock with
      | some block =>
          let c := { c with hit_count := c.hit_count + 1,
                            write_hit_count := c.write_hit_count + 1 }
          let data0 := if block.data.isEmpty then
                         List.replicate c.block_size none
                       else block.data
          if offset < data0.length then
            let block' :=
              { block with data := data0.set offset (some value), dirty := true,
                           last_time := if c.policy = Policy.LRU then c.time
                                        else block.last_time }
            let cache_set := { cache_set with blocks := odSet cache_set.blocks tag block' }
            (Except.ok (),
             { c with sets := c.sets.set index cache_set, time := c.time + 1 }, m)
          else
            -- Python raises IndexError at `block.data[offset] = data`, after
            -- the possible reallocation of `block.data` but before `dirty`.
            let block' := { block with data := data0 }
            let cache_set := { cache_set with blocks := odSet cache_set.blocks tag block' }
            (Except.error "IndexError", { c with sets := c.sets.set index cache_set }, m)
      | none =>
          let c := { c with time := c.time + 1 }
          match Memory.write m address (some value) with
          | (Except.ok _, m') => (Except.ok (), c, m')
          | (Except.error e, m') => (Except.error e, c, m')

/-- One driver-level operation on the cache: `cache.read(address, memory)`
or `cache.write(address, value, memory)`. -/
inductive Op where
  | read (address : Nat)
  | write (address : Nat) (value : Int)
deriving DecidableEq, Repr

/-- Run a sequence of operations, threading cache and memory exactly as the
drivers do (each Python call mutates in place whether or not it raises). -/
def runOps (pick : List Nat → Nat) (c : Cache) (m : Memory) :
    List Op → Cache × Memory
  | [] => (c, m)
  | Op.read a :: rest =>
      let r := Cache.read pick c m a
      runOps pick r.2.1 r.2.2 rest
  | Op.write a v :: rest =>
      let r := Cache.write c m a v
      runOps pick r.2.1 r.2.2 rest

/-! ## Helper lemmas about the eviction scan -/

/-- Proof-side characterisation of the scan loop: the first list entry
attaining the minimum of `key` (ties keep the earlier entry). -/
def firstMin (key : CacheBlock → Nat) : List (Nat × CacheBlock) → Option (Nat × CacheBlock)
  | [] => none
  | p :: rest =>
      match firstMin key rest with
      | none => some p
      | some q => if key q.2 < key p.2 then some q else some p

theorem evictScanAux_eq_firstMin (key : CacheBlock → Nat) :
    ∀ (l : List (Nat × CacheBlock)) (kt : Nat) (t : Nat),
      evictScanAux key (kt : Int) (some t) l =
        (match firstMin key l with
         | none => some t
         | some q => if key q.2 < kt then some q.1 else some t) := by
  intro l
  induction l with
  | nil => intro kt t; simp [evictScanAux, firstMin]
  | cons p rest ih =>
      intro kt t
      simp only [evictScanAux, firstMin]
      have hne : ¬((kt : Int) = -1) := by omega
      by_cases hlt : key p.2 < kt
      · have : ((key p.2 : Int) < (kt : Int)) := by exact_mod_cast hlt
        rw [if_pos (Or.inr this), ih]
        cases hfm : firstMin key rest with
        | none => simp [hfm, hlt]
        | some q =>
            by_cases hq : key q.2 < key p.2
            · have : key q.2 < kt := lt_trans hq hlt
              simp [hq, this]
            · have : ¬ key p.2 < key p.2 := lt_irrefl _
              simp [hq, hlt]
      · have : ¬((key p.2 : Int) < (kt : Int)) := by
          intro hc; exact hlt (by exact_mod_cast hc)
        rw [if_neg (by tauto), ih]
        cases hfm : firstMin key rest with
        | none => simp [hlt]
        | some q =>
            by_cases hq : key q.2 < key p.2
            · have hqk : (key q.2 < kt) ↔ (key q.2 < kt) := Iff.rfl
              simp [hq]
            · have : ¬ key q.2 < kt := fun hc =>
                hlt (lt_of_le_of_lt (le_of_not_lt hq) hc)
              simp [hq, this, hlt]

theorem evictScan_eq_firstMin (key : CacheBlock → Nat)
    (blocks : List (Nat × CacheBlock)) (h : blocks ≠ []) :
    evictScan key blocks = (firstMin key blocks).map Prod.fst := by
  match blocks, h with
  | p :: rest, _ =>
      show evictScanAux key (-1) none (p :: rest) = _
      simp only [evictScanAux, if_pos (Or.inl rfl)]
      rw [evictScanAux_eq_firstMin]
      simp only [firstMin]
      cases hfm : firstMin key rest with
      | none => simp
      | some q => by_cases hq : key q.2 < key p.2 <;> simp [hq]

theorem firstMin_isSome (key : CacheBlock → Nat)
    (l : List (Nat × CacheBlock)) (h : l ≠ []) :
    ∃ q, firstMin key l = some q := by
  match l, h with
  | p :: rest, _ =>
      simp only [firstMin]
      cases firstMin key rest with
      | none => exact ⟨p, rfl⟩
      | some q => by_cases hq : key q.2 < key p.2 <;> simp [hq]

theorem firstMin_spec (key : CacheBlock → Nat) :
    ∀ (l : List (Nat × CacheBlock)) (q : Nat × CacheBlock),
      firstMin key l = some q →
      ∃ pre post, l = pre ++ q :: post ∧
        (∀ p ∈ pre, key q.2 < key p.2) ∧
        (∀ p ∈ l, key q.2 ≤ key p.2) := by
  intro l
  induction l with
  | nil => intro q h; simp [firstMin] at h
  | cons p rest ih =>
      intro q h
      cases hfm : firstMin key rest with
      | none =>
          simp only [firstMin, hfm] at h
          cases h
          have hrest : rest = [] := by
            cases rest with
            | nil => rfl
            | cons r rs =>
                exfalso
                obtain ⟨q', hq'⟩ := firstMin_isSome key (r :: rs) (by simp)
                rw [hq'] at hfm
                cases hfm
          subst hrest
          exact ⟨[], [], rfl, by simp, by simp⟩
      | some q' =>
          simp only [firstMin, hfm] at h
          obtain ⟨pre, post, hsplit, hpre, hall⟩ := ih q' hfm
          by_cases hq : key q'.2 < key p.2
          · rw [if_pos hq] at h
            cases h
            refine ⟨p :: pre, post, by rw [hsplit]; rfl, ?_, ?_⟩
            · intro r hr
              rcases List.mem_cons.mp hr with h1 | h2
              · exact h1 ▸ hq
              · exact hpre r h2
            · intro r hr
              rcases List.mem_cons.mp hr with h1 | h2
              · exact h1 ▸ le_of_lt hq
              · exact hall r h2
          · rw [if_neg hq] at h
            cases h
            refine ⟨[], rest, by simp, by simp, ?_⟩
            intro r hr
            rcases List.mem_cons.mp hr with h1 | h2
            · exact h1 ▸ le_rfl
            · exact le_trans (le_of_not_lt hq) (hall r h2)

/-! ## Helper lemmas about the OrderedDict model -/

theorem find?_map_update (k : Nat) (v : CacheBlock) :
    ∀ l : List (Nat × CacheBlock), l.any (fun p => p.1 == k) →
      (l.map (fun p => if p.1 == k then (k, v) else p)).find? (fun p => p.1 == k) =
        some (k, v) := by
  intro l
  induction l with
  | nil => intro h; simp at h
  | cons p rest ih =>
      intro h
      rw [List.map_cons]
      by_cases hp : p.1 = k
      · have h1 : (if (p.1 == k) = true then (k, v) else p) = (k, v) := by
          simp [hp]
        rw [h1]
        simp [List.find?]
      · have h1 : (if (p.1 == k) = true then (k, v) else p) = p := by
          simp [hp]
        rw [h1, List.find?_cons_of_neg _ (by simpa using hp)]
        refine ih ?_
        rcases List.any_eq_true.mp h with ⟨q, hq, hqk⟩
        rcases List.mem_cons.mp hq with h2 | h2
        · exact absurd (show p.1 = k by rw [← h2]; exact beq_iff_eq.mp hqk) hp
        · exact List.any_eq_true.mpr ⟨q, h2, hqk⟩

theorem find?_append_new (k : Nat) (v : CacheBlock) :
    ∀ l : List (Nat × CacheBlock), ¬ l.any (fun p => p.1 == k) →
      (l ++ [(k, v)]).find? (fun p => p.1 == k) = some (k, v) := by
  intro l
  induction l with
  | nil => intro _; simp [List.find?]
  | cons p rest ih =>
      intro h
      have hp : ¬ p.1 = k := by
        intro hc
        exact h (List.any_eq_true.mpr ⟨p, List.mem_cons_self _ _, by simpa using hc⟩)
      have hr : ¬ rest.any (fun p => p.1 == k) := by
        intro hc
        rcases List.any_eq_true.mp hc with ⟨q, hq, hqk⟩
        exact h (List.any_eq_true.mpr ⟨q, List.mem_cons_of_mem _ hq, hqk⟩)
      rw [List.cons_append, List.find?_cons_of_neg _ (by simpa using hp)]
      exact ih hr

theorem find?_odSet_self (l : List (Nat × CacheBlock)) (k : Nat) (v : CacheBlock) :
    (odSet l k v).find? (fun p => p.1 == k) = some (k, v) := by
  unfold odSet
  by_cases h : l.any (fun p => p.1 == k)
  · rw [if_pos h]
    exact find?_map_update k v l h
  · rw [if_neg h]
    exact find?_append_new k v l h

theorem mem_odSet_of_ne (l : List (Nat × CacheBlock)) (k : Nat) (v : CacheBlock)
    (p : Nat × CacheBlock) (hp : p ∈ l) (hne : p.1 ≠ k) : p ∈ odSet l k v := by
  unfold odSet
  by_cases h : l.any (fun q => q.1 == k)
  · rw [if_pos h]
    exact List.mem_map.mpr ⟨p, hp, by simp [hne]⟩
  · rw [if_neg h]
    exact List.mem_append_left _ hp

theorem findblock_odSet_self (s : CacheSet) (k : Nat) (v : CacheBlock) :
    CacheSet.find_block { s with blocks := odSet s.blocks k v } k = some v := by
  unfold CacheSet.find_block
  rw [find?_odSet_self]
  rfl

/-! ## Helper lemmas about list update -/

theorem getD_set_self (l : List (Option Int)) (i : Nat) (v : Option Int)
    (h : i < l.length) : (l.set i v).getD i none = v := by
  induction l generalizing i with
  | nil => simp at h
  | cons x xs ih =>
      cases i with
      | zero => simp [List.getD]
      | succ j =>
          simp only [List.set, List.getD, List.get?] at *
          exact ih j (by simpa using h)

theorem getD_set_ne (l : List (Option Int)) (i j : Nat) (v : Option Int)
    (h : i ≠ j) : (l.set i v).getD j none = l.getD j none := by
  induction l generalizing i j with
  | nil => simp [List.getD]
  | cons x xs ih =>
      cases i with
      | zero =>
          cases j with
          | zero => exact absurd rfl h
          | succ j' => simp [List.getD]
      | succ i' =>
          cases j with
          | zero => simp [List.getD]
          | succ j' =>
              simp only [List.set, List.getD, List.get?]
              exact ih i' j' (fun hc => h (by rw [hc]))

theorem get?_of_lt {α : Type} (l : List α) (i : Nat) (h : i < l.length) :
    ∃ v, l.get? i = some v := by
  induction l generalizing i with
  | nil => simp at h
  | cons x xs ih =>
      cases i with
      | zero => exact ⟨x, rfl⟩
      | succ j => exact ih j (by simpa using h)

theorem getD_eq_of_get? (l : List (Option Int)) :
    ∀ (i : Nat) (v : Option Int), l.get? i = some v → l.getD i none = v := by
  induction l with
  | nil => intro i v h; simp [List.get?] at h
  | cons x xs ih =>
      intro i v h
      cases i with
      | zero =>
          simp only [List.get?, Option.some.injEq] at h
          simp [List.getD, h]
      | succ j =>
          simp only [List.get?] at h
          simp only [List.getD] at *
          exact ih j v h

/-! ## The write-back loop, pointwise -/

theorem writeBackAux_spec (b : CacheBlock) :
    ∀ (count i : Nat) (m : Memory),
      i + count ≤ b.data.length →
      m.data.length = m.size →
      ∃ m', writeBackAux b m i count = (Except.ok (), m') ∧
        m'.size = m.size ∧ m'.data.length = m.data.length ∧
        ∀ a : Nat, m'.data.getD a none =
          if b.base_address + i ≤ a ∧ a < b.base_address + i + count ∧ a < m.size then
            b.data.getD (a - b.base_address) none
          else m.data.getD a none := by
  intro count
  induction count with
  | zero =>
      intro i m hlen hm
      exact ⟨m, rfl, rfl, rfl, fun a => by rw [if_neg (by omega)]⟩
  | succ n ih =>
      intro i m hlen hm
      by_cases haddr : b.base_address + i < m.size
      · obtain ⟨v, hv⟩ := get?_of_lt b.data i (by omega)
        have hw : Memory.write m (b.base_address + i) v =
            (Except.ok (), { m with access_count := m.access_count + 1,
                                    data := m.data.set (b.base_address + i) v }) := by
          unfold Memory.write
          rw [if_neg (by omega)]
        have hstep : writeBackAux b m i (n + 1) =
            writeBackAux b { m with access_count := m.access_count + 1,
                                    data := m.data.set (b.base_address + i) v } (i + 1) n := by
          simp only [writeBackAux, if_pos haddr, hv, hw]
        generalize hM : ({ m with access_count := m.access_count + 1, data := m.data.set (b.base_address + i) v } : Memory) = m1 at hstep
        have hm1sz : m1.size = m.size := by rw [← hM]
        have hm1dt : m1.data = m.data.set (b.base_address + i) v := by rw [← hM]
        have hm1len : m1.data.length = m1.size := by
          rw [hm1dt, hm1sz, List.length_set, hm]
        obtain ⟨m', hrun, hsz, hdl, hpt⟩ := ih (i + 1) m1 (by omega) hm1len
        refine ⟨m', by rw [hstep, hrun], by rw [hsz, hm1sz], ?_, ?_⟩
        · rw [hdl, hm1dt, List.length_set]
        · intro a
          rw [hpt a, hm1sz, hm1dt]
          by_cases ha : a = b.base_address + i
          · subst ha
            rw [if_neg (by omega), if_pos ⟨by omega, by omega, haddr⟩]
            rw [getD_set_self _ _ _ (by omega)]
            have heq : b.base_address + i - b.base_address = i := by omega
            rw [heq, getD_eq_of_get? _ _ _ hv]
          · by_cases hin : b.base_address + i ≤ a ∧ a < b.base_address + i + (n + 1) ∧
                a < m.size
            · have h1 : b.base_address + (i + 1) ≤ a ∧
                  a < b.base_address + (i + 1) + n ∧ a < m.size := by omega
              rw [if_pos h1, if_pos hin]
            · have h1 : ¬(b.base_address + (i + 1) ≤ a ∧
                  a < b.base_address + (i + 1) + n ∧ a < m.size) := by omega
              rw [if_neg h1, if_neg hin]
              exact getD_set_ne _ _ _ _ (fun hc => ha hc.symm)
      · have hstep : writeBackAux b m i (n + 1) = writeBackAux b m (i + 1) n := by
          simp only [writeBackAux, if_neg haddr]
        obtain ⟨m', hrun, hsz, hdl, hpt⟩ := ih (i + 1) m (by omega) hm
        refine ⟨m', by rw [hstep, hrun], hsz, hdl, ?_⟩
        intro a
        rw [hpt a]
        by_cases hin : b.base_address + i ≤ a ∧ a < b.base_address + i + (n + 1) ∧ a < m.size
        · have h1 : b.base_address + (i + 1) ≤ a ∧
              a < b.base_address + (i + 1) + n ∧ a < m.size := by omega
          rw [if_pos h1, if_pos hin]
        · have h1 : ¬(b.base_address + (i + 1) ≤ a ∧
              a < b.base_address + (i + 1) + n ∧ a < m.size) := by omega
          rw [if_neg h1, if_neg hin]

theorem get?_set_self {α : Type} :
    ∀ (l : List α) (i : Nat) (x : α), i < l.length →
      (l.set i x).get? i = some x := by
  intro l
  induction l with
  | nil => intro i x h; simp at h
  | cons y ys ih =>
      intro i x h
      cases i with
      | zero => rfl
      | succ j => exact ih j x (by simpa using h)

/-- The eviction scan selects the first entry attaining the minimum of
`key`: every strictly earlier entry has a strictly larger key, and no entry
has a smaller one. -/
theorem evictScan_first_min (key : CacheBlock → Nat)
    (blocks : List (Nat × CacheBlock)) (hne : blocks ≠ []) :
    ∃ q pre post, evictScan key blocks = some (q : Nat × CacheBlock).1 ∧
      blocks = pre ++ q :: post ∧
      (∀ p ∈ pre, key q.2 < key p.2) ∧
      (∀ p ∈ blocks, key q.2 ≤ key p.2) := by
  obtain ⟨q, hq⟩ := firstMin_isSome key blocks hne
  obtain ⟨pre, post, h1, h2, h3⟩ := firstMin_spec key blocks q hq
  refine ⟨q, pre, post, ?_, h1, h2, h3⟩
  rw [evictScan_eq_firstMin key blocks hne, hq]
  rfl

/-! ## Counter bookkeeping of `read` and `write` -/

theorem read_counter_shape (pick : List Nat → Nat) (c : Cache) (m : Memory)
    (a : Nat) :
    (Cache.read pick c m a).2.1.access_count = c.access_count + 1 ∧
    (Cache.read pick c m a).2.1.read_count = c.read_count + 1 ∧
    (Cache.read pick c m a).2.1.write_count = c.write_count ∧
    (Cache.read pick c m a).2.1.write_hit_count = c.write_hit_count ∧
    (((Cache.read pick c m a).2.1.hit_count = c.hit_count ∧
      (Cache.read pick c m a).2.1.read_hit_count = c.read_hit_count) ∨
     ((Cache.read pick c m a).2.1.hit_count = c.hit_count + 1 ∧
      (Cache.read pick c m a).2.1.read_hit_count = c.read_hit_count + 1)) := by
  obtain ⟨res, hres⟩ : ∃ r, Cache.read pick c m a = r := ⟨_, rfl⟩
  rw [hres]
  simp only [Cache.read] at hres
  repeat' split at hres
  all_goals (subst hres; simp)

theorem write_counter_shape (c : Cache) (m : Memory) (a : Nat) (v : Int) :
    (Cache.write c m a v).2.1.access_count = c.access_count + 1 ∧
    (Cache.write c m a v).2.1.write_count = c.write_count + 1 ∧
    (Cache.write c m a v).2.1.read_count = c.read_count ∧
    (Cache.write c m a v).2.1.read_hit_count = c.read_hit_count ∧
    (((Cache.write c m a v).2.1.hit_count = c.hit_count ∧
      (Cache.write c m a v).2.1.write_hit_count = c.write_hit_count) ∨
     ((Cache.write c m a v).2.1.hit_count = c.hit_count + 1 ∧
      (Cache.write c m a v).2.1.write_hit_count = c.write_hit_count + 1)) := by
  obtain ⟨res, hres⟩ : ∃ r, Cache.write c m a v = r := ⟨_, rfl⟩
  rw [hres]
  simp only [Cache.write] at hres
  repeat' split at hres
  all_goals (subst hres; simp)

/-- The two counter equations of the spec. -/
def counterInv (c : Cache) : Prop :=
  c.access_count = c.read_count + c.write_count ∧
  c.hit_count = c.read_hit_count + c.write_hit_count

theorem counterInv_read (pick : List Nat → Nat) (c : Cache) (m : Memory)
    (a : Nat) (h : counterInv c) : counterInv (Cache.read pick c m a).2.1 := by
  obtain ⟨h1, h2⟩ := h
  obtain ⟨e1, e2, e3, e4, e5⟩ := read_counter_shape pick c m a
  rcases e5 with ⟨f1, f2⟩ | ⟨f1, f2⟩ <;>
    exact ⟨by omega, by omega⟩

theorem counterInv_write (c : Cache) (m : Memory) (a : Nat) (v : Int)
    (h : counterInv c) : counterInv (Cache.write c m a v).2.1 := by
  obtain ⟨h1, h2⟩ := h
  obtain ⟨e1, e2, e3, e4, e5⟩ := write_counter_shape c m a v
  rcases e5 with ⟨f1, f2⟩ | ⟨f1, f2⟩ <;>
    exact ⟨by omega, by omega⟩

theorem counterInv_runOps (pick : List Nat → Nat) :
    ∀ (ops : List Op) (c : Cache) (m : Memory),
      counterInv c → counterInv (runOps pick c m ops).1 := by
  intro ops
  induction ops with
  | nil => intro c m h; exact h
  | cons op rest ih =>
      intro c m h
      cases op with
      | read a => exact ih _ _ (counterInv_read pick c m a h)
      | write a v => exact ih _ _ (counterInv_write c m a v h)

/-! ## Shapes of the `read` and `write` paths -/

theorem read_hit_shape (pick : List Nat → Nat) (c : Cache) (m : Memory)
    (a tag index offset : Nat) (st : CacheSet) (block : CacheBlock)
    (hsplit : c.address_split a = Except.ok (tag, index, offset))
    (hst : c.sets.get? index = some st)
    (hfb : st.find_block tag = some block) (hval : block.valid = true) :
    ∃ blk, blk = (if c.policy = Policy.LRU then { block with last_time := c.time } else block) ∧
      (Cache.read pick c m a).2.1.sets.get? index =
        some { st with blocks := odSet st.blocks tag blk } ∧
      (Cache.read pick c m a).2.1.time = c.time + 1 ∧
      (Cache.read pick c m a).2.2 = m ∧
      (Cache.read pick c m a).2.1.hit_count = c.hit_count + 1 := by
  have hidx : index < c.sets.length := by
    rcases List.get?_eq_some.mp hst with ⟨h, _⟩
    exact h
  have hsplit' : Cache.address_split { c with access_count := c.access_count + 1, read_count := c.read_count + 1 } a = Except.ok (tag, index, offset) := hsplit
  have hst' : ({ c with access_count := c.access_count + 1, read_count := c.read_count + 1 } : Cache).sets.get? index = some st := hst
  refine ⟨_, rfl, ?_, ?_, ?_, ?_⟩ <;>
  · simp only [Cache.read, hsplit', hst', hfb, hval]
    repeat' split
    all_goals simp_all [List.getElem?_set_eq_of_lt, hidx]

theorem write_hit_shape (c : Cache) (m : Memory) (a : Nat) (v : Int)
    (tag index offset : Nat) (st : CacheSet) (block : CacheBlock)
    (hsplit : c.address_split a = Except.ok (tag, index, offset))
    (hst : c.sets.get? index = some st)
    (hfb : st.find_block tag = some block) (hval : block.valid = true)
    (hoff : offset < (if block.data.isEmpty then
        List.replicate c.block_size (none : Option Int) else block.data).length) :
    ∃ blk, blk = { block with
        data := (if block.data.isEmpty then
            List.replicate c.block_size none else block.data).set offset (some v),
        dirty := true,
        last_time := if c.policy = Policy.LRU then c.time else block.last_time } ∧
      Cache.write c m a v = (Except.ok (),
        { c with access_count := c.access_count + 1, write_count := c.write_count + 1,
                 hit_count := c.hit_count + 1, write_hit_count := c.write_hit_count + 1,
                 time := c.time + 1,
                 sets := c.sets.set index { st with blocks := odSet st.blocks tag blk } },
        m) := by
  refine ⟨_, rfl, ?_⟩
  have hsplit' : Cache.address_split { c with access_count := c.access_count + 1, write_count := c.write_count + 1 } a = Except.ok (tag, index, offset) := hsplit
  have hst' : ({ c with access_count := c.access_count + 1, write_count := c.write_count + 1 } : Cache).sets.get? index = some st := hst
  simp only [Cache.write, hsplit', hst', hfb, hval]
  split <;> simp_all

/-- C4: a `Cache.write` whose tag is not present-and-valid in its set is a
write miss: the value goes straight to Memory at `address`, no block is
created and no set is filled (the `sets` field is unchanged), and
`hit_count` is unchanged (write-around / no-write-allocate). -/
theorem write_miss_write_around (c : Cache) (m : Memory) (a : Nat) (v : Int)
    (tag index offset : Nat) (st : CacheSet)
    (hsplit : c.address_split a = Except.ok (tag, index, offset))
    (hst : c.sets.get? index = some st)
    (hmiss : st.find_block tag = none ∨
      ∃ b, st.find_block tag = some b ∧ b.valid = false)
    (hsize : a < m.size) :
    Cache.write c m a v = (Except.ok (),
      { c with access_count := c.access_count + 1, write_count := c.write_count + 1,
               time := c.time + 1 },
      { m with access_count := m.access_count + 1, data := m.data.set a (some v) }) := by
  have hsplit' : Cache.address_split { c with access_count := c.access_count + 1, write_count := c.write_count + 1 } a = Except.ok (tag, index, offset) := hsplit
  have hst' : ({ c with access_count := c.access_count + 1, write_count := c.write_count + 1 } : Cache).sets.get? index = some st := hst
  have hw : Memory.write m a (some v) = (Except.ok (),
      { m with access_count := m.access_count + 1, data := m.data.set a (some v) }) := by
    unfold Memory.write
    rw [if_neg (by omega)]
  rcases hmiss with hnone | ⟨b, hb, hbv⟩
  · simp only [Cache.write, hsplit', hst', hnone, hw]
  · simp only [Cache.write, hsplit', hst', hb, hbv, hw]
    simp

theorem read_oor_shape (pick : List Nat → Nat) (c : Cache) (m : Memory)
    (a : Nat) (h : 2 ^ c.address_bit ≤ a) :
    Cache.read pick c m a = (Except.error "Address out of range",
      { c with access_count := c.access_count + 1, read_count := c.read_count + 1 },
      m) := by
  have hsp : Cache.address_split { c with access_count := c.access_count + 1, read_count := c.read_count + 1 } a = Except.error "Address out of range" := by
    unfold Cache.address_split
    rw [if_pos (by simpa using h)]
  simp only [Cache.read, hsp]

theorem write_oor_shape (c : Cache) (m : Memory) (a : Nat) (v : Int)
    (h : 2 ^ c.address_bit ≤ a) :
    Cache.write c m a v = (Except.error "Address out of range",
      { c with access_count := c.access_count + 1, write_count := c.write_count + 1 },
      m) := by
  have hsp : Cache.address_split { c with access_count := c.access_count + 1, write_count := c.write_count + 1 } a = Except.error "Address out of range" := by
    unfold Cache.address_split
    rw [if_pos (by simpa using h)]
  simp only [Cache.write, hsp]

/-! ## Concrete fixtures used by witnesses and scenarios -/

/-- Oracle for the RANDOM policy in concrete runs; the FIFO/LRU claims never
consult it. -/
def exPick : List Nat → Nat := fun _ => 0

/-- A filled valid clean block as the read-miss path builds one
(configuration `block_size = 1`, `set_count = 2`). -/
def exBlock (tag lt : Nat) : CacheBlock :=
  { tag := tag, valid := true, dirty := false, block_size := 1,
    data := [some 0], base_address := 2 * tag, load_time := lt, last_time := lt }

/-- A two-way LRU set holding tags 0 (touched at time 2) and 1 (time 1). -/
def exSetLRU : CacheSet :=
  { blocks := [(0, exBlock 0 2), (1, exBlock 1 1)], associativity := 2,
    policy := Policy.LRU }

/-- A small LRU cache whose set 0 is `exSetLRU`. -/
def exCacheLRU : Cache :=
  { mkCache 4 1 2 Policy.LRU 3 with
    sets := [exSetLRU, CacheSet.new 2 Policy.LRU], time := 4 }

/-- A short mixed operation sequence (its last read is out of range). -/
def exOps : List Op :=
  [Op.read 0, Op.write 0 5, Op.write 2 7, Op.read 0, Op.read 9]

/-- The FIFO twin of `exSetLRU`. -/
def exSetFIFO : CacheSet :=
  { blocks := [(0, exBlock 0 2), (1, exBlock 1 1)], associativity := 2,
    policy := Policy.FIFO }

/-- The FIFO twin of `exCacheLRU`. -/
def exCacheFIFO : Cache :=
  { mkCache 4 1 2 Policy.FIFO 3 with
    sets := [exSetFIFO, CacheSet.new 2 Policy.FIFO], time := 4 }

/-- A dirty two-word block (its set below exercises the write-back). -/
def exDirtyBlock : CacheBlock :=
  { tag := 0, valid := true, dirty := true, block_size := 2,
    data := [some 7, some 8], base_address := 0, load_time := 0, last_time := 0 }

/-- A one-way FIFO set holding the dirty block. -/
def exSetDirty : CacheSet :=
  { blocks := [(0, exDirtyBlock)], associativity := 1, policy := Policy.FIFO }

/-- A clean valid block used by the tie-break counterexample (`load_time`
and `last_time` both 0). -/
def exTieBlock (tag : Nat) : CacheBlock :=
  { tag := tag, valid := true, dirty := false, block_size := 1,
    data := [some 0], base_address := 0, load_time := 0, last_time := 0 }

/-- Two occupants tied at the minimum timestamp, inserted as tag 5 then
tag 3. -/
def exTieSet : CacheSet :=
  { blocks := [(5, exTieBlock 5), (3, exTieBlock 3)], associativity := 2,
    policy := Policy.FIFO }

/-! ## The claims -/

/-- C5: for every `address < 2 ^ address_bit`, the `(tag, index, offset)`
triple returned by `address_split` satisfies
`tag * block_size * set_count + index * block_size + offset = address`. -/
theorem address_split_roundtrip (c : Cache) (address : Nat)
    (h : address < 2 ^ c.address_bit) (hb : 0 < c.block_size)
    (hs : 0 < c.set_count) :
    ∃ tag index offset,
      c.address_split address = Except.ok (tag, index, offset) ∧
      tag * c.block_size * c.set_count + index * c.block_size + offset = address := by
  refine ⟨address / (c.block_size * c.set_count),
          address / c.block_size % c.set_count,
          address % c.block_size, ?_, ?_⟩
  · unfold Cache.address_split
    rw [if_neg (by omega), if_neg (by omega)]
  · have h1 : address / (c.block_size * c.set_count) =
        address / c.block_size / c.set_count :=
      (Nat.div_div_eq_div_mul address c.block_size c.set_count).symm
    have e1 : c.set_count * (address / c.block_size / c.set_count) +
        address / c.block_size % c.set_count = address / c.block_size :=
      Nat.div_add_mod _ _
    have e2 : c.block_size * (address / c.block_size) + address % c.block_size =
        address := Nat.div_add_mod _ _
    calc address / (c.block_size * c.set_count) * c.block_size * c.set_count +
          address / c.block_size % c.set_count * c.block_size +
          address % c.block_size
        = c.block_size * (c.set_count * (address / c.block_size / c.set_count) +
            address / c.block_size % c.set_count) + address % c.block_size := by
          rw [h1]; ring
      _ = c.block_size * (address / c.block_size) + address % c.block_size := by
          rw [e1]
      _ = address := e2

/-- Witness for C5 at the configuration `(1024 reduced to 4, 1, 2)` and
address 5. -/
theorem address_split_roundtrip_witness :
    (5 < 2 ^ (mkCache 4 1 2 Policy.LRU 3).address_bit ∧
     0 < (mkCache 4 1 2 Policy.LRU 3).block_size ∧
     0 < (mkCache 4 1 2 Policy.LRU 3).set_count) ∧
    ∃ tag index offset,
      (mkCache 4 1 2 Policy.LRU 3).address_split 5 = Except.ok (tag, index, offset) ∧
      tag * (mkCache 4 1 2 Policy.LRU 3).block_size *
          (mkCache 4 1 2 Policy.LRU 3).set_count +
        index * (mkCache 4 1 2 Policy.LRU 3).block_size + offset = 5 :=
  ⟨⟨by decide, by decide, by decide⟩,
   address_split_roundtrip (mkCache 4 1 2 Policy.LRU 3) 5 (by decide) (by decide)
     (by decide)⟩

/-- C6: after any sequence of `read`/`write` calls on a freshly constructed
cache, `access_count = read_count + write_count` and
`hit_count = read_hit_count + write_hit_count` (the invariant is preserved
even by calls that raise, so in particular it holds after every sequence of
successfully completed calls). -/
theorem counters_consistent (pick : List Nat → Nat)
    (cs bs assoc : Nat) (policy : Policy) (ab : Nat) (c0 : Cache)
    (m : Memory) (ops : List Op)
    (h : Cache.new cs bs assoc policy ab = Except.ok c0) :
    (runOps pick c0 m ops).1.access_count =
      (runOps pick c0 m ops).1.read_count + (runOps pick c0 m ops).1.write_count ∧
    (runOps pick c0 m ops).1.hit_count =
      (runOps pick c0 m ops).1.read_hit_count +
        (runOps pick c0 m ops).1.write_hit_count := by
  have h0 : counterInv c0 := by
    unfold Cache.new at h
    split at h
    · cases h
    · split at h
      · cases h
      · simp only [Except.ok.injEq] at h
        subst h
        exact ⟨rfl, rfl⟩
  exact counterInv_runOps pick ops c0 m h0

/-- Witness for C6 on a five-operation mixed trace. -/
theorem counters_consistent_witness :
    Cache.new 4 1 2 Policy.LRU 3 = Except.ok (mkCache 4 1 2 Policy.LRU 3) ∧
    ((runOps exPick (mkCache 4 1 2 Policy.LRU 3) (Memory.new 8) exOps).1.access_count =
      (runOps exPick (mkCache 4 1 2 Policy.LRU 3) (Memory.new 8) exOps).1.read_count +
        (runOps exPick (mkCache 4 1 2 Policy.LRU 3) (Memory.new 8) exOps).1.write_count ∧
     (runOps exPick (mkCache 4 1 2 Policy.LRU 3) (Memory.new 8) exOps).1.hit_count =
      (runOps exPick (mkCache 4 1 2 Policy.LRU 3) (Memory.new 8) exOps).1.read_hit_count +
        (runOps exPick (mkCache 4 1 2 Policy.LRU 3) (Memory.new 8) exOps).1.write_hit_count) :=
  ⟨by decide,
   counters_consistent exPick 4 1 2 Policy.LRU 3 (mkCache 4 1 2 Policy.LRU 3)
     (Memory.new 8) exOps (by decide)⟩

/-- Witness for C4: a write to address 3 of `exCacheLRU` (set 1 is empty). -/
theorem write_miss_write_around_witness :
    (exCacheLRU.address_split 3 = Except.ok (1, 1, 0) ∧
     exCacheLRU.sets.get? 1 = some (CacheSet.new 2 Policy.LRU) ∧
     (CacheSet.new 2 Policy.LRU).find_block 1 = none ∧ 3 < (Memory.new 8).size) ∧
    Cache.write exCacheLRU (Memory.new 8) 3 7 = (Except.ok (),
      { exCacheLRU with access_count := exCacheLRU.access_count + 1, write_count := exCacheLRU.write_count + 1, time := exCacheLRU.time + 1 },
      { Memory.new 8 with access_count := (Memory.new 8).access_count + 1, data := (Memory.new 8).data.set 3 (some 7) }) :=
  ⟨⟨by decide, by decide, by decide, by decide⟩,
   write_miss_write_around exCacheLRU (Memory.new 8) 3 7 1 1 0
     (CacheSet.new 2 Policy.LRU) (by decide) (by decide) (Or.inl (by decide))
     (by decide)⟩

/-- C8 counterexample: the out-of-range `read` at address 9 raises, but the
failed call has mutated the cache: `access_count` went from 0 to 1 (the
counters are bumped before the range check, contradicting the claim that
`access_count` is unchanged by the failed call). -/
theorem failed_read_mutates_counters :
    (Cache.read exPick (mkCache 4 1 2 Policy.LRU 3) (Memory.new 8) 9).1 =
      Except.error "Address out of range" ∧
    (mkCache 4 1 2 Policy.LRU 3).access_count = 0 ∧
    (Cache.read exPick (mkCache 4 1 2 Policy.LRU 3) (Memory.new 8) 9).2.1.access_count = 1 := by
  exact ⟨by decide, by decide, by decide⟩

/-- C8 (amended): an out-of-range `read`/`write` raises `OutOfRange`
synchronously; the failed call has already incremented `access_count` and
`read_count` (resp. `write_count`), and everything else — hit counters,
`time`, the sets, and the memory — is unchanged. -/
theorem oor_failure_shape (pick : List Nat → Nat) (c : Cache) (m : Memory)
    (a : Nat) (v : Int) (h : 2 ^ c.address_bit ≤ a) :
    Cache.read pick c m a = (Except.error "Address out of range",
      { c with access_count := c.access_count + 1, read_count := c.read_count + 1 }, m) ∧
    Cache.write c m a v = (Except.error "Address out of range",
      { c with access_count := c.access_count + 1, write_count := c.write_count + 1 }, m) :=
  ⟨read_oor_shape pick c m a h, write_oor_shape c m a v h⟩

/-- Witness for the amended C8 at address 9 of a 3-bit address space. -/
theorem oor_failure_shape_witness :
    2 ^ (mkCache 4 1 2 Policy.LRU 3).address_bit ≤ 9 ∧
    (Cache.read exPick (mkCache 4 1 2 Policy.LRU 3) (Memory.new 8) 9 = (Except.error "Address out of range",
      { mkCache 4 1 2 Policy.LRU 3 with access_count := (mkCache 4 1 2 Policy.LRU 3).access_count + 1, read_count := (mkCache 4 1 2 Policy.LRU 3).read_count + 1 }, Memory.new 8) ∧
     Cache.write (mkCache 4 1 2 Policy.LRU 3) (Memory.new 8) 9 7 = (Except.error "Address out of range",
      { mkCache 4 1 2 Policy.LRU 3 with access_count := (mkCache 4 1 2 Policy.LRU 3).access_count + 1, write_count := (mkCache 4 1 2 Policy.LRU 3).write_count + 1 }, Memory.new 8)) :=
  ⟨by decide,
   oor_failure_shape exPick (mkCache 4 1 2 Policy.LRU 3) (Memory.new 8) 9 7 (by decide)⟩

/-- C10: a read hit performs no Memory operation: the memory (stored data
and `access_count` alike) after `Cache.read` is exactly the memory given to
it. -/
theorem read_hit_memory_frame (pick : List Nat → Nat) (c : Cache) (m : Memory)
    (a tag index offset : Nat) (st : CacheSet) (block : CacheBlock)
    (hsplit : c.address_split a = Except.ok (tag, index, offset))
    (hst : c.sets.get? index = some st)
    (hfb : st.find_block tag = some block) (hval : block.valid = true) :
    (Cache.read pick c m a).2.2 = m := by
  obtain ⟨blk, _, _, _, hm, _⟩ :=
    read_hit_shape pick c m a tag index offset st block hsplit hst hfb hval
  exact hm

/-- Witness for C10: the hit at address 0 of `exCacheLRU`. -/
theorem read_hit_memory_frame_witness :
    (exCacheLRU.address_split 0 = Except.ok (0, 0, 0) ∧
     exCacheLRU.sets.get? 0 = some exSetLRU ∧
     exSetLRU.find_block 0 = some (exBlock 0 2) ∧ (exBlock 0 2).valid = true) ∧
    (Cache.read exPick exCacheLRU (Memory.new 8) 0).2.2 = Memory.new 8 :=
  ⟨⟨by decide, by decide, by decide, by decide⟩,
   read_hit_memory_frame exPick exCacheLRU (Memory.new 8) 0 0 0 0 exSetLRU
     (exBlock 0 2) (by decide) (by decide) (by decide) (by decide)⟩

/-- C1: under LRU (i) the victim `evict_block` selects is an occupant block
with the smallest `last_time`; (ii) a read hit sets the hit block's
`last_time` to the current global `time` (and a write hit does too); and
(iii) with associativity 2, reading tags A then B into the same set,
re-reading A, then inserting a third tag C evicts B and not A. -/
theorem lru_policy_correct :
    (∀ (pick : List Nat → Nat) (s : CacheSet), s.policy = Policy.LRU →
       s.blocks ≠ [] →
       ∃ t b pre post, s.evictTag pick = some t ∧
         s.blocks = pre ++ (t, b) :: post ∧
         ∀ p ∈ s.blocks, b.last_time ≤ p.2.last_time) ∧
    (∀ (pick : List Nat → Nat) (c : Cache) (m : Memory)
       (a tag index offset : Nat) (st : CacheSet) (block : CacheBlock),
       c.policy = Policy.LRU →
       c.address_split a = Except.ok (tag, index, offset) →
       c.sets.get? index = some st →
       st.find_block tag = some block → block.valid = true →
       ∃ st', (Cache.read pick c m a).2.1.sets.get? index = some st' ∧
         st'.find_block tag = some { block with last_time := c.time }) ∧
    (∀ (c : Cache) (m : Memory) (a : Nat) (v : Int)
       (tag index offset : Nat) (st : CacheSet) (block : CacheBlock),
       c.policy = Policy.LRU →
       c.address_split a = Except.ok (tag, index, offset) →
       c.sets.get? index = some st →
       st.find_block tag = some block → block.valid = true →
       offset < (if block.data.isEmpty then
           List.replicate c.block_size (none : Option Int) else block.data).length →
       ∃ st' blk, (Cache.write c m a v).2.1.sets.get? index = some st' ∧
         st'.find_block tag = some blk ∧ blk.last_time = c.time) ∧
    ((runOps exPick (mkCache 4 1 2 Policy.LRU 3) (Memory.new 8)
        [Op.read 0, Op.read 2, Op.read 0, Op.read 4]).1.sets.getD 0
        (CacheSet.new 2 Policy.LRU)).blocks.map Prod.fst = [0, 2] := by
  refine ⟨?_, ?_, ?_, by decide⟩
  · intro pick s hpol hne
    have hscan : s.evictTag pick = evictScan (fun b => b.last_time) s.blocks := by
      unfold CacheSet.evictTag
      rw [hpol]
    obtain ⟨q, pre, post, h1, h2, _, h4⟩ :=
      evictScan_first_min (fun b => b.last_time) s.blocks hne
    exact ⟨q.1, q.2, pre, post, by rw [hscan]; exact h1, by simpa using h2, h4⟩
  · intro pick c m a tag index offset st block hpol hsp hst hfb hval
    obtain ⟨blk, hblk, hsets, _, _, _⟩ :=
      read_hit_shape pick c m a tag index offset st block hsp hst hfb hval
    rw [hpol] at hblk
    simp at hblk
    exact ⟨_, hsets, by rw [← hblk]; exact findblock_odSet_self st tag blk⟩
  · intro c m a v tag index offset st block hpol hsp hst hfb hval hoff
    have hidx : index < c.sets.length := by
      rcases List.get?_eq_some.mp hst with ⟨h, _⟩
      exact h
    obtain ⟨blk, hblk, hw⟩ :=
      write_hit_shape c m a v tag index offset st block hsp hst hfb hval hoff
    refine ⟨_, blk, ?_, findblock_odSet_self st tag blk, ?_⟩
    · rw [hw]
      exact get?_set_self c.sets index _ hidx
    · rw [hblk, hpol]
      simp

/-- Witness for C1: the eviction clause on `exSetLRU` (tag 1 holds the
minimum `last_time`), the read-hit clause and the write-hit clause at
address 0 of `exCacheLRU`. -/
theorem lru_policy_correct_witness :
    (exSetLRU.policy = Policy.LRU ∧ exSetLRU.blocks ≠ [] ∧
     ∃ t b pre post, exSetLRU.evictTag exPick = some t ∧
       exSetLRU.blocks = pre ++ (t, b) :: post ∧
       ∀ p ∈ exSetLRU.blocks, b.last_time ≤ p.2.last_time) ∧
    (∃ st', (Cache.read exPick exCacheLRU (Memory.new 8) 0).2.1.sets.get? 0 = some st' ∧
       st'.find_block 0 = some { exBlock 0 2 with last_time := 4 }) ∧
    (∃ st' blk, (Cache.write exCacheLRU (Memory.new 8) 0 9).2.1.sets.get? 0 = some st' ∧
       st'.find_block 0 = some blk ∧ blk.last_time = 4) :=
  ⟨⟨rfl, by decide,
    lru_policy_correct.1 exPick exSetLRU rfl (by decide)⟩,
   lru_policy_correct.2.1 exPick exCacheLRU (Memory.new 8) 0 0 0 0 exSetLRU
     (exBlock 0 2) rfl (by decide) (by decide) (by decide) (by decide),
   lru_policy_correct.2.2.1 exCacheLRU (Memory.new 8) 0 9 0 0 0 exSetLRU
     (exBlock 0 2) rfl (by decide) (by decide) (by decide) (by decide) (by decide)⟩

/-- C2: under FIFO (i) the victim `evict_block` selects is an occupant
block with the smallest `load_time`; (ii) read and write hits never modify
any occupant's `load_time` (the hit block keeps its `load_time`, the other
occupants are untouched); (iii) inserting `k+1` distinct tags into a
`k`-way set with no hits to it evicts the first-inserted tag even with a
write miss interleaved (a write miss inserts nothing: write-around). -/
theorem fifo_policy_correct :
    (∀ (pick : List Nat → Nat) (s : CacheSet), s.policy = Policy.FIFO →
       s.blocks ≠ [] →
       ∃ t b pre post, s.evictTag pick = some t ∧
         s.blocks = pre ++ (t, b) :: post ∧
         ∀ p ∈ s.blocks, b.load_time ≤ p.2.load_time) ∧
    (∀ (pick : List Nat → Nat) (c : Cache) (m : Memory)
       (a tag index offset : Nat) (st : CacheSet) (block : CacheBlock),
       c.address_split a = Except.ok (tag, index, offset) →
       c.sets.get? index = some st →
       st.find_block tag = some block → block.valid = true →
       ∃ st' blk, (Cache.read pick c m a).2.1.sets.get? index = some st' ∧
         st'.find_block tag = some blk ∧ blk.load_time = block.load_time ∧
         ∀ p ∈ st.blocks, p.1 ≠ tag → p ∈ st'.blocks) ∧
    (∀ (c : Cache) (m : Memory) (a : Nat) (v : Int)
       (tag index offset : Nat) (st : CacheSet) (block : CacheBlock),
       c.address_split a = Except.ok (tag, index, offset) →
       c.sets.get? index = some st →
       st.find_block tag = some block → block.valid = true →
       offset < (if block.data.isEmpty then
           List.replicate c.block_size (none : Option Int) else block.data).length →
       ∃ st' blk, (Cache.write c m a v).2.1.sets.get? index = some st' ∧
         st'.find_block tag = some blk ∧ blk.load_time = block.load_time ∧
         ∀ p ∈ st.blocks, p.1 ≠ tag → p ∈ st'.blocks) ∧
    ((runOps exPick (mkCache 4 1 2 Policy.FIFO 3) (Memory.new 8)
        [Op.read 0, Op.write 6 3, Op.read 2, Op.read 4]).1.sets.getD 0
        (CacheSet.new 2 Policy.FIFO)).blocks.map Prod.fst = [1, 2] := by
  refine ⟨?_, ?_, ?_, by decide⟩
  · intro pick s hpol hne
    have hscan : s.evictTag pick = evictScan (fun b => b.load_time) s.blocks := by
      unfold CacheSet.evictTag
      rw [hpol]
    obtain ⟨q, pre, post, h1, h2, _, h4⟩ :=
      evictScan_first_min (fun b => b.load_time) s.blocks hne
    exact ⟨q.1, q.2, pre, post, by rw [hscan]; exact h1, by simpa using h2, h4⟩
  · intro pick c m a tag index offset st block hsp hst hfb hval
    obtain ⟨blk, hblk, hsets, _, _, _⟩ :=
      read_hit_shape pick c m a tag index offset st block hsp hst hfb hval
    refine ⟨_, blk, hsets, findblock_odSet_self st tag blk, ?_, ?_⟩
    · rw [hblk]
      split <;> rfl
    · intro p hp hne
      exact mem_odSet_of_ne st.blocks tag blk p hp hne
  · intro c m a v tag index offset st block hsp hst hfb hval hoff
    have hidx : index < c.sets.length := by
      rcases List.get?_eq_some.mp hst with ⟨h, _⟩
      exact h
    obtain ⟨blk, hblk, hw⟩ :=
      write_hit_shape c m a v tag index offset st block hsp hst hfb hval hoff
    refine ⟨_, blk, ?_, findblock_odSet_self st tag blk, ?_, ?_⟩
    · rw [hw]
      exact get?_set_self c.sets index _ hidx
    · rw [hblk]
    · intro p hp hne
      exact mem_odSet_of_ne st.blocks tag blk p hp hne

/-- Witness for C2: the eviction clause on `exSetFIFO`, the read-hit and
write-hit clauses at address 0 of `exCacheFIFO`. -/
theorem fifo_policy_correct_witness :
    (exSetFIFO.policy = Policy.FIFO ∧ exSetFIFO.blocks ≠ [] ∧
     ∃ t b pre post, exSetFIFO.evictTag exPick = some t ∧
       exSetFIFO.blocks = pre ++ (t, b) :: post ∧
       ∀ p ∈ exSetFIFO.blocks, b.load_time ≤ p.2.load_time) ∧
    (∃ st' blk, (Cache.read exPick exCacheFIFO (Memory.new 8) 0).2.1.sets.get? 0 = some st' ∧
       st'.find_block 0 = some blk ∧ blk.load_time = (exBlock 0 2).load_time ∧
       ∀ p ∈ exSetFIFO.blocks, p.1 ≠ 0 → p ∈ st'.blocks) ∧
    (∃ st' blk, (Cache.write exCacheFIFO (Memory.new 8) 0 9).2.1.sets.get? 0 = some st' ∧
       st'.find_block 0 = some blk ∧ blk.load_time = (exBlock 0 2).load_time ∧
       ∀ p ∈ exSetFIFO.blocks, p.1 ≠ 0 → p ∈ st'.blocks) :=
  ⟨⟨rfl, by decide,
    fifo_policy_correct.1 exPick exSetFIFO rfl (by decide)⟩,
   fifo_policy_correct.2.1 exPick exCacheFIFO (Memory.new 8) 0 0 0 0 exSetFIFO
     (exBlock 0 2) (by decide) (by decide) (by decide) (by decide),
   fifo_policy_correct.2.2.1 exCacheFIFO (Memory.new 8) 0 9 0 0 0 exSetFIFO
     (exBlock 0 2) (by decide) (by decide) (by decide) (by decide) (by decide)⟩

/-- C3: when `evict_block` removes its selected victim `t`: a clean victim
(`dirty = false`) is removed with Memory — data and access counter —
exactly unchanged; a dirty victim with its full `block_size` data words has
each word written to Memory at `base_address + offset` for
`offset ∈ [0, block_size)`, skipping any word whose absolute address is
outside Memory's declared range, and every other memory cell keeps its old
value. -/
theorem evict_writeback_correct (pick : List Nat → Nat) (s : CacheSet)
    (m : Memory) (t : Nat) (b : CacheBlock)
    (hne : s.blocks ≠ []) (htag : s.evictTag pick = some t)
    (hfb : s.find_block t = some b) :
    (b.dirty = false →
      s.evict_block pick m =
        (Except.ok (), { s with blocks := odDel s.blocks t }, m)) ∧
    (b.dirty = true → b.data.length = b.block_size → 0 < b.block_size →
     m.data.length = m.size →
      ∃ m', s.evict_block pick m =
          (Except.ok (), { s with blocks := odDel s.blocks t }, m') ∧
        m'.size = m.size ∧
        ∀ a : Nat, m'.data.getD a none =
          if b.base_address ≤ a ∧ a < b.base_address + b.block_size ∧ a < m.size
          then b.data.getD (a - b.base_address) none
          else m.data.getD a none) := by
  constructor
  · intro hclean
    unfold CacheSet.evict_block
    rw [if_neg (by simpa using hne)]
    simp only [htag, hfb, hclean]
    simp
  · intro hdirty hlen hpos hm
    obtain ⟨m', hrun, hsz, _, hpt⟩ :=
      writeBackAux_spec b b.block_size 0 m (by omega) hm
    have hnonempty : b.data.isEmpty = false := by
      cases hd : b.data with
      | nil => rw [hd] at hlen; simp at hlen; omega
      | cons x xs => rfl
    refine ⟨m', ?_, hsz, ?_⟩
    · unfold CacheSet.evict_block
      rw [if_neg (by simpa using hne)]
      simp only [htag, hfb, hdirty, hnonempty, writeBack, hrun]
      simp
    · intro a
      rw [hpt a]
      simp only [Nat.add_zero]

/-- Witness for C3: the clean clause on `exSetLRU` (victim tag 1) and the
dirty clause on `exSetDirty` over a one-word memory, which also exercises
the out-of-range skip (`base_address + 1` is outside the memory). -/
theorem evict_writeback_correct_witness :
    (exSetLRU.blocks ≠ [] ∧ exSetLRU.evictTag exPick = some 1 ∧
     exSetLRU.find_block 1 = some (exBlock 1 1) ∧ (exBlock 1 1).dirty = false ∧
     exSetLRU.evict_block exPick (Memory.new 8) =
       (Except.ok (), { exSetLRU with blocks := odDel exSetLRU.blocks 1 }, Memory.new 8)) ∧
    (exSetDirty.blocks ≠ [] ∧ exSetDirty.evictTag exPick = some 0 ∧
     exSetDirty.find_block 0 = some exDirtyBlock ∧ exDirtyBlock.dirty = true ∧
     ∃ m', exSetDirty.evict_block exPick (Memory.new 1) =
         (Except.ok (), { exSetDirty with blocks := odDel exSetDirty.blocks 0 }, m') ∧
       m'.size = (Memory.new 1).size ∧
       ∀ a : Nat, m'.data.getD a none =
         if exDirtyBlock.base_address ≤ a ∧
             a < exDirtyBlock.base_address + exDirtyBlock.block_size ∧
             a < (Memory.new 1).size
         then exDirtyBlock.data.getD (a - exDirtyBlock.base_address) none
         else (Memory.new 1).data.getD a none) :=
  ⟨⟨by decide, by decide, by decide, by decide,
    (evict_writeback_correct exPick exSetLRU (Memory.new 8) 1 (exBlock 1 1)
      (by decide) (by decide) (by decide)).1 (by decide)⟩,
   ⟨by decide, by decide, by decide, by decide,
    (evict_writeback_correct exPick exSetDirty (Memory.new 1) 0 exDirtyBlock
      (by decide) (by decide) (by decide)).2 (by decide) (by decide) (by decide)
      (by decide)⟩⟩

/-- C7 counterexample: `cache_size = 4, block_size = 8, associativity = 1`
are positive powers of two whose division `4 / (8 * 1)` is not exact, yet
the constructor succeeds — `set_count` is silently truncated to 0 instead
of the configuration being rejected. -/
theorem set_count_truncation_counterexample :
    4 % (8 * 1) ≠ 0 ∧
    Cache.new 4 8 1 Policy.FIFO 3 = Except.ok (mkCache 4 8 1 Policy.FIFO 3) ∧
    (mkCache 4 8 1 Policy.FIFO 3).set_count = 0 :=
  ⟨by decide, by decide, by decide⟩

/-- C7 (amended): the constructor checks positivity and powers of two only;
every such configuration is accepted, with
`set_count = cache_size / (block_size * associativity)` silently truncated
— there is no exact-division check. -/
theorem constructor_accepts_inexact_division
    (cs bs assoc : Nat) (p : Policy) (ab : Nat)
    (h1 : isPow2 cs = true) (h2 : isPow2 bs = true) (h3 : isPow2 assoc = true) :
    Cache.new cs bs assoc p ab = Except.ok (mkCache cs bs assoc p ab) ∧
    (mkCache cs bs assoc p ab).set_count = cs / (bs * assoc) := by
  have hcs : cs ≠ 0 := by intro hc; rw [hc] at h1; exact absurd h1 (by decide)
  have hbs : bs ≠ 0 := by intro hc; rw [hc] at h2; exact absurd h2 (by decide)
  have has : assoc ≠ 0 := by intro hc; rw [hc] at h3; exact absurd h3 (by decide)
  constructor
  · unfold Cache.new
    rw [if_neg (by tauto), if_neg (by simp [h1, h2, h3])]
  · rfl

/-- Witness for the amended C7 at the counterexample's configuration. -/
theorem constructor_accepts_inexact_division_witness :
    (isPow2 4 = true ∧ isPow2 8 = true ∧ isPow2 1 = true) ∧
    (Cache.new 4 8 1 Policy.LRU 3 = Except.ok (mkCache 4 8 1 Policy.LRU 3) ∧
     (mkCache 4 8 1 Policy.LRU 3).set_count = 4 / (8 * 1)) :=
  ⟨⟨by decide, by decide, by decide⟩,
   constructor_accepts_inexact_division 4 8 1 Policy.LRU 3 (by decide) (by decide)
     (by decide)⟩

/-- C9 counterexample: in `exTieSet` both occupants share the minimum
`load_time` 0; the claim demands the tied victim with the smallest tag (3),
but `evict_block` selects tag 5 — the first in insertion order — and
removes it, leaving tag 3. -/
theorem tie_break_not_min_tag :
    (∀ p ∈ exTieSet.blocks, p.2.load_time = 0) ∧
    exTieSet.policy = Policy.FIFO ∧
    exTieSet.evictTag exPick = some 5 ∧
    (exTieSet.evict_block exPick (Memory.new 8)).2.1.blocks.map Prod.fst = [3] :=
  ⟨by decide, rfl, by decide, by decide⟩

/-- C9 (amended): under FIFO (resp. LRU) the victim is the first occupant
in OrderedDict insertion order attaining the minimum `load_time` (resp.
`last_time`): every strictly earlier occupant has a strictly larger
timestamp.  Ties are therefore broken by insertion position, not by tag
value. -/
theorem evict_tie_break_first_in_order (pick : List Nat → Nat) (s : CacheSet)
    (hne : s.blocks ≠ []) :
    (s.policy = Policy.FIFO →
      ∃ t b pre post, s.evictTag pick = some t ∧
        s.blocks = pre ++ (t, b) :: post ∧
        (∀ p ∈ pre, b.load_time < p.2.load_time) ∧
        (∀ p ∈ s.blocks, b.load_time ≤ p.2.load_time)) ∧
    (s.policy = Policy.LRU →
      ∃ t b pre post, s.evictTag pick = some t ∧
        s.blocks = pre ++ (t, b) :: post ∧
        (∀ p ∈ pre, b.last_time < p.2.last_time) ∧
        (∀ p ∈ s.blocks, b.last_time ≤ p.2.last_time)) := by
  constructor
  · intro hpol
    have hscan : s.evictTag pick = evictScan (fun b => b.load_time) s.blocks := by
      unfold CacheSet.evictTag
      rw [hpol]
    obtain ⟨q, pre, post, h1, h2, h3, h4⟩ :=
      evictScan_first_min (fun b => b.load_time) s.blocks hne
    exact ⟨q.1, q.2, pre, post, by rw [hscan]; exact h1, by simpa using h2, h3, h4⟩
  · intro hpol
    have hscan : s.evictTag pick = evictScan (fun b => b.last_time) s.blocks := by
      unfold CacheSet.evictTag
      rw [hpol]
    obtain ⟨q, pre, post, h1, h2, h3, h4⟩ :=
      evictScan_first_min (fun b => b.last_time) s.blocks hne
    exact ⟨q.1, q.2, pre, post, by rw [hscan]; exact h1, by simpa using h2, h3, h4⟩

/-- Witness for the amended C9 on `exTieSet` (FIFO clause). -/
theorem evict_tie_break_first_in_order_witness :
    exTieSet.blocks ≠ [] ∧ exTieSet.policy = Policy.FIFO ∧
    (∃ t b pre post, exTieSet.evictTag exPick = some t ∧
      exTieSet.blocks = pre ++ (t, b) :: post ∧
      (∀ p ∈ pre, b.load_time < p.2.load_time) ∧
      (∀ p ∈ exTieSet.blocks, b.load_time ≤ p.2.load_time)) :=
  ⟨by decide, rfl,
   (evict_tie_break_first_in_order exPick exTieSet (by decide)).1 rfl⟩

end CacheSim
